import Mathlib

/-!
Shallow embedding of the Kex interpreter (`src/kex_main.py`): lexer, parser,
and tree-walking evaluator, together with theorems checking the
natural-language specification against this embedding.

Modelling conventions:
* Python strings are `List Char` with an explicit cursor `pos`; `text[pos]`
  is `text[pos]?`.
* Python `int` is `Int` (arbitrary precision); Python `float` is modelled as
  an exact rational (`Rat`) — every concrete value appearing in the claims
  (`1.0`, `2.5`, `3.5`) is exactly representable in IEEE double, so no
  rounding behaviour is observable in any statement below.
* Python exceptions are `Except` errors; the REPL's `try/except` is the
  error branch of `runLine`.
* `str.isspace`/`isdigit`/`isalpha`/`isalnum` are modelled by the
  corresponding ASCII `Char` predicates (the claims only exercise ASCII).
-/

/- `Rat`'s arithmetic is `@[irreducible]` by default, which blocks kernel
evaluation of concrete interpreter runs involving float values; restoring
the definitions' own reducibility lets `rfl`/`decide` compute them. -/
set_option allowUnsafeReducibility true
attribute [semireducible] Rat.mul Rat.add Rat.sub Rat.div Rat.inv

namespace Kex

/-- Python runtime values flowing through the interpreter.  `pyNone` is
Python's `None` (used as the `value` of the EOF token and returned by
fall-through code paths). -/
inductive Value where
  | int (n : Int)
  | float (q : Rat)
  | str (s : String)
  | bool (b : Bool)
  | pyNone
  | list (xs : List Value)
  | dict (xs : List (Value × Value))
deriving Repr

/-- `TokenType` enumeration from `kex_main.py`. -/
inductive TokenType where
  | INTEGER | FLOAT | STRING | BOOLEAN | IDENTIFIER
  | ASSIGN | PLUS | MINUS | MUL | DIV
  | LPAREN | RPAREN | LBRACKET | RBRACKET | LBRACE | RBRACE
  | COMMA | COLON | EOF
deriving DecidableEq, Repr

/-- `Token(type, value, line, column)`.  The Python code stores heterogeneous
values (numbers, strings, booleans, single characters, `None`); all are
`Value`s here. -/
structure Token where
  type : TokenType
  value : Value
  line : Nat
  column : Nat
deriving Repr

/-- Errors raised by `Lexer` methods (`raise Exception(...)` in the source,
distinguished here by their message shape).  `valueError` is the
`ValueError` Python's `int()`/`float()` raise on a malformed literal. -/
inductive LexErr where
  | unterminatedString (line column : Nat)
  | invalidChar (c : Char) (line column : Nat)
  | valueError (s : String)
deriving Repr

/-- Mutable state of `Lexer`: the text, cursor `pos`, and the line/column
bookkeeping.  `current_char` is derived (`currentChar`). -/
structure LexState where
  text : List Char
  pos : Nat
  line : Nat
  column : Nat
deriving Repr

/-- `self.current_char`: `text[pos]` when `pos < len(text)`, else `None`. -/
def currentChar (st : LexState) : Option Char := st.text[st.pos]?

/-- `Lexer.advance`: line/column bookkeeping depends on whether the current
character is a newline; `pos` always moves one forward.  (The per-field
conditionals are the same function as the source's two-branch `if`, stated
field-wise so that reducing `pos`/`text` does not force the branch.) -/
def advance (st : LexState) : LexState :=
  { st with
    pos := st.pos + 1,
    line := if currentChar st = some '\n' then st.line + 1 else st.line,
    column := if currentChar st = some '\n' then 1 else st.column + 1 }

/-- `Lexer.__init__` for a given text. -/
def initLex (text : String) : LexState := ⟨text.data, 0, 1, 1⟩

/-- Number of unconsumed characters; every lexer loop consumes at least one
character per iteration, so this bounds the remaining iterations. -/
def remaining (st : LexState) : Nat := st.text.length - st.pos

/-- `Lexer.skip_whitespace`, with the loop bounded by explicit fuel (the
wrapper `skipWs` supplies exactly the remaining character count, which is
always sufficient). -/
def skipWsAux : Nat → LexState → LexState
  | 0, st => st
  | n + 1, st =>
    match currentChar st with
    | some c => if c.isWhitespace then skipWsAux n (advance st) else st
    | none => st

/-- `Lexer.skip_whitespace`. -/
def skipWs (st : LexState) : LexState := skipWsAux (remaining st) st

/-- `Lexer.peek`. -/
def peek (st : LexState) : Option Char := st.text[st.pos + 1]?

/-- The `while self.current_char is not None and self.current_char != '\n'`
loop of the single-line-comment branch of `Lexer.skip_comment` (fuelled). -/
def skipLineAux : Nat → LexState → LexState
  | 0, st => st
  | n + 1, st =>
    match currentChar st with
    | some c => if c = '\n' then st else skipLineAux n (advance st)
    | none => st

def skipLine (st : LexState) : LexState := skipLineAux (remaining st) st

/-- The `while self.current_char is not None` scan of the multi-line-comment
branch of `Lexer.skip_comment` (looks for the closing `*/`), fuelled. -/
def blockLoopAux : Nat → LexState → LexState
  | 0, st => st
  | n + 1, st =>
    match currentChar st with
    | some c =>
      if c = '*' ∧ peek st = some '/' then advance (advance st)
      else blockLoopAux n (advance st)
    | none => st

def blockLoop (st : LexState) : LexState := blockLoopAux (remaining st) st

/-- `Lexer.skip_comment`: called with `current_char == '/'`; returns either a
`DIV` token (lone slash) or `none` after skipping a comment. -/
def skipComment (st : LexState) : Option Token × LexState :=
  let st1 := advance st
  match currentChar st1 with
  | some '/' => (none, advance (skipLine st1))
  | some '*' => (none, blockLoop (advance st1))
  | _ => (some ⟨.DIV, .str "/", st1.line, st1.column - 1⟩, st1)

/-- The digit/dot-consuming loop of `Lexer.number` (builds `result`),
fuelled. -/
def scanNumberAux : Nat → LexState → List Char × LexState
  | 0, st => ([], st)
  | n + 1, st =>
    match currentChar st with
    | some c =>
      if c.isDigit ∨ c = '.' then
        (c :: (scanNumberAux n (advance st)).1, (scanNumberAux n (advance st)).2)
      else ([], st)
    | none => ([], st)

def scanNumber (st : LexState) : List Char × LexState :=
  scanNumberAux (remaining st) st

/-- Numeric value of a digit string (the core of Python's `int()`). -/
def digitsVal (cs : List Char) : Nat :=
  cs.foldl (fun a c => 10 * a + (c.toNat - '0'.toNat)) 0

/-- Python's `int(s)` restricted to the digit/dot strings `Lexer.number`
produces: succeeds exactly on nonempty all-digit strings. -/
def intOfChars (cs : List Char) : Option Int :=
  if cs ≠ [] ∧ cs.all Char.isDigit then some ((digitsVal cs : Int)) else none

/-- Python's `float(s)` restricted to the digit/dot strings `Lexer.number`
produces: accepts `digits '.'? digits` with at least one digit on either
side of the (optional, single) dot; a second dot makes the fractional part
non-digit and the parse fail. -/
def floatOfChars (cs : List Char) : Option Rat :=
  let pre := cs.takeWhile (fun c => c ≠ '.')
  match cs.dropWhile (fun c => c ≠ '.') with
  | [] =>
    if pre ≠ [] ∧ pre.all Char.isDigit then some ((digitsVal pre : Int) : Rat)
    else none
  | '.' :: frac =>
    if pre.all Char.isDigit ∧ frac.all Char.isDigit ∧ (pre ≠ [] ∨ frac ≠ []) then
      some ((digitsVal pre : Rat) + (digitsVal frac : Rat) / ((10 : Rat) ^ frac.length))
    else none
  | _ => none

/-- `Lexer.number`: consumes digits/dots; a literal containing `.` goes to
`float()`, otherwise to `int()`; the token records the post-scan `line` and
the pre-scan absolute `pos` (which the source passes as `column`). -/
def number (st : LexState) : Except LexErr (Token × LexState) :=
  let startPos := st.pos
  let lit := (scanNumber st).1
  let st' := (scanNumber st).2
  if lit.contains '.' then
    match floatOfChars lit with
    | some q => .ok (⟨.FLOAT, .float q, st'.line, startPos⟩, st')
    | none => .error (.valueError (String.mk lit))
  else
    match intOfChars lit with
    | some n => .ok (⟨.INTEGER, .int n, st'.line, startPos⟩, st')
    | none => .error (.valueError (String.mk lit))

/-- The character-accumulating loop of `Lexer.string`, fuelled; the `Bool`
records whether a closing quote was found (loop exit by `'"'`) or the input
ran out. -/
def stringLoopAux : Nat → LexState → List Char → List Char × LexState × Bool
  | 0, st, acc => (acc, st, false)
  | n + 1, st, acc =>
    match currentChar st with
    | some c =>
      if c = '"' then (acc, st, true) else stringLoopAux n (advance st) (acc ++ [c])
    | none => (acc, st, false)

def stringLoop (st : LexState) (acc : List Char) : List Char × LexState × Bool :=
  stringLoopAux (remaining st) st acc

/-- `Lexer.string`: called with `current_char == '"'`; consumes raw
characters up to the closing quote (no escape processing); end of input
first raises the unterminated-string error with the current line and the
opening quote's absolute position (passed as "column" in the source). -/
def string (st : LexState) : Except LexErr (Token × LexState) :=
  let startPos := st.pos
  match stringLoop (advance st) [] with
  | (acc, st', true) => .ok (⟨.STRING, .str (String.mk acc), st'.line, startPos⟩, advance st')
  | (_, st', false) => .error (.unterminatedString st'.line startPos)

/-- The alphanumeric/underscore-consuming loop of `Lexer.identifier`,
fuelled. -/
def scanIdentAux : Nat → LexState → List Char × LexState
  | 0, st => ([], st)
  | n + 1, st =>
    match currentChar st with
    | some c =>
      if c.isAlphanum ∨ c = '_' then
        (c :: (scanIdentAux n (advance st)).1, (scanIdentAux n (advance st)).2)
      else ([], st)
    | none => ([], st)

def scanIdent (st : LexState) : List Char × LexState :=
  scanIdentAux (remaining st) st

/-- `Lexer.identifier`: keywords `true`/`false` become `BOOLEAN` tokens,
anything else an `IDENTIFIER`. -/
def identifier (st : LexState) : Token × LexState :=
  let startPos := st.pos
  let lit := (scanIdent st).1
  let st' := (scanIdent st).2
  let s := String.mk lit
  if s = "true" then (⟨.BOOLEAN, .bool true, st'.line, startPos⟩, st')
  else if s = "false" then (⟨.BOOLEAN, .bool false, st'.line, startPos⟩, st')
  else (⟨.IDENTIFIER, .str s, st'.line, startPos⟩, st')

/-- `Lexer.get_next_token`, fuelled (the wrapper `nextToken` supplies
sufficient fuel): the main token dispatch loop.  The whitespace and comment
branches `continue` the loop; every other branch returns a token or raises.
Exhausted input yields the `EOF` token with the state unchanged (also the
out-of-fuel value, unreachable from the wrapper). -/
def nextTokenAux : Nat → LexState → Except LexErr (Token × LexState)
  | 0, st => .ok (⟨.EOF, .pyNone, st.line, st.column⟩, st)
  | n + 1, st =>
    match currentChar st with
    | none => .ok (⟨.EOF, .pyNone, st.line, st.column⟩, st)
    | some c =>
      if c.isWhitespace then nextTokenAux n (skipWs st)
      else if c = '/' then
        match skipComment st with
        | (some t, st') => .ok (t, st')
        | (none, st') => nextTokenAux n st'
      else if c.isDigit ∨ c = '.' then number st
      else if c = '"' then string st
      else if c.isAlpha ∨ c = '_' then .ok (identifier st)
      else if c = '=' then .ok (⟨.ASSIGN, .str "=", st.line, st.column⟩, advance st)
      else if c = '+' then .ok (⟨.PLUS, .str "+", st.line, st.column⟩, advance st)
      else if c = '-' then .ok (⟨.MINUS, .str "-", st.line, st.column⟩, advance st)
      else if c = '*' then .ok (⟨.MUL, .str "*", st.line, st.column⟩, advance st)
      else if c = '(' then .ok (⟨.LPAREN, .str "(", st.line, st.column⟩, advance st)
      else if c = ')' then .ok (⟨.RPAREN, .str ")", st.line, st.column⟩, advance st)
      else if c = '[' then .ok (⟨.LBRACKET, .str "[", st.line, st.column⟩, advance st)
      else if c = ']' then .ok (⟨.RBRACKET, .str "]", st.line, st.column⟩, advance st)
      else if c = '\x7b' then .ok (⟨.LBRACE, .str "\x7b", st.line, st.column⟩, advance st)
      else if c = '\x7d' then .ok (⟨.RBRACE, .str "\x7d", st.line, st.column⟩, advance st)
      else if c = ',' then .ok (⟨.COMMA, .str ",", st.line, st.column⟩, advance st)
      else if c = ':' then .ok (⟨.COLON, .str ":", st.line, st.column⟩, advance st)
      else .error (.invalidChar c st.line st.column)

/-- `Lexer.get_next_token`. -/
def nextToken (st : LexState) : Except LexErr (Token × LexState) :=
  nextTokenAux (remaining st + 1) st

/-- Repeated `get_next_token` calls collected into a list, stopping at the
first `EOF` token; the `fuel` bounds the number of calls (`tokenize` supplies
enough for the whole text). -/
def tokenizeAux : Nat → LexState → Except LexErr (List Token)
  | 0, _ => .ok []
  | n + 1, st =>
    match nextToken st with
    | .error e => .error e
    | .ok (t, st') =>
      if t.type = .EOF then .ok [t]
      else
        match tokenizeAux n st' with
        | .error e => .error e
        | .ok ts => .ok (t :: ts)

/-- Token stream of a whole text (the `debug_tokens` loop of the source:
`get_next_token` until `EOF`). -/
def tokenize (text : String) : Except LexErr (List Token) :=
  tokenizeAux (text.length + 1) (initLex text)

/-- Python `==` on the values that can appear as dict keys: numbers (including
`bool`, which Python treats as `0`/`1`) compare numerically, strings compare
as strings, `None` equals `None`.  Containers never occur as keys (dict keys
in the parser always come from token values, which are scalars), so they
compare unequal here. -/
def pyEq : Value → Value → Bool
  | .int a, .int b => a = b
  | .int a, .float q => (a : Rat) = q
  | .int a, .bool b => a = (if b then 1 else 0)
  | .float q, .int b => q = (b : Rat)
  | .float p, .float q => p = q
  | .float q, .bool b => q = (if b then 1 else 0)
  | .bool a, .int b => (if a then 1 else 0 : Int) = b
  | .bool a, .float q => (if a then 1 else 0 : Rat) = q
  | .bool a, .bool b => a = b
  | .str s, .str t => s = t
  | .pyNone, .pyNone => true
  | _, _ => false

/-- `d[k] = v` on a Python dict modelled as an insertion-ordered association
list: an existing (`==`-equal) key keeps its position and original key
object and gets the new value; a new key is appended. -/
def pyAssocSet : List (Value × α) → Value → α → List (Value × α)
  | [], k, v => [(k, v)]
  | (k', v') :: rest, k, v =>
    if pyEq k' k then (k', v) :: rest else (k', v') :: pyAssocSet rest k v

/-- `d.get(k)` on a Python dict modelled as an association list. -/
def pyAssocGet : List (Value × α) → Value → Option α
  | [], _ => none
  | (k', v') :: rest, k => if pyEq k' k then some v' else pyAssocGet rest k

/-- AST nodes of `kex_main.py`.  `noneNode` is the Python `None` that
`Parser.factor` returns when no alternative matches; `num`/`var` store the
token's `value`; `assign` stores the left-hand `Var`'s `value` (the parser
only builds `Assign` when the left side is a `Var`); `dictE` stores the
parse-time dict `pairs` (a Python dict keyed by `key.value`). -/
inductive AST where
  | num (value : Value)
  | var (value : Value)
  | binop (left : AST) (op : TokenType) (right : AST)
  | assign (left : Value) (right : AST)
  | listE (elements : List AST)
  | dictE (pairs : List (Value × AST))
  | noneNode
deriving Repr

/-- Errors raised during parsing: a lexer error surfacing through
`get_next_token`, the parser's own `Invalid syntax`, the `AttributeError`
from `key.value` on a node without a `value` attribute, and fuel exhaustion
of this embedding's bounded recursion (never reached for inputs given
sufficient fuel). -/
inductive PErr where
  | lexError (e : LexErr)
  | invalidSyntax
  | attributeError
  | outOfFuel
deriving Repr

/-- Parser state: the lexer state plus the one-token lookahead
(`self.current_token`). -/
structure PState where
  lx : LexState
  cur : Token
deriving Repr

/-- `Parser.eat`. -/
def eat (tt : TokenType) (p : PState) : Except PErr PState :=
  if p.cur.type = tt then
    match nextToken p.lx with
    | .ok (t, lx') => .ok ⟨lx', t⟩
    | .error e => .error (.lexError e)
  else .error .invalidSyntax

/-- Python's `key.value` attribute access on an AST node (used by the dict
branch of `Parser.factor`); nodes without a `value` attribute raise
`AttributeError`. -/
def keyOf : AST → Except PErr Value
  | .num v => .ok v
  | .var v => .ok v
  | _ => .error .attributeError

mutual

/-- `Parser.factor`.  The fall-through when no alternative matches returns
Python `None` (`noneNode`) without consuming a token and without error. -/
def factor : Nat → PState → Except PErr (AST × PState)
  | 0, _ => .error .outOfFuel
  | n + 1, p =>
    let token := p.cur
    match token.type with
    | .INTEGER | .FLOAT | .STRING | .BOOLEAN => do
      let p ← eat token.type p
      .ok (.num token.value, p)
    | .IDENTIFIER => do
      let p ← eat .IDENTIFIER p
      .ok (.var token.value, p)
    | .LPAREN => do
      let p ← eat .LPAREN p
      let r ← expr n p
      let p ← eat .RPAREN r.2
      .ok (r.1, p)
    | .LBRACKET => do
      let p ← eat .LBRACKET p
      listLoop n [] p
    | .LBRACE => do
      let p ← eat .LBRACE p
      dictLoop n [] p
    | _ => .ok (.noneNode, p)

/-- The element-collecting `while` loop of the list branch of
`Parser.factor`, ending by eating `]`. -/
def listLoop : Nat → List AST → PState → Except PErr (AST × PState)
  | 0, _, _ => .error .outOfFuel
  | n + 1, elems, p =>
    if p.cur.type = .RBRACKET then do
      let p ← eat .RBRACKET p
      .ok (.listE elems, p)
    else do
      let r ← expr n p
      let elems := elems ++ [r.1]
      if r.2.cur.type = .COMMA then do
        let p ← eat .COMMA r.2
        listLoop n elems p
      else listLoop n elems r.2

/-- The pair-collecting `while` loop of the dict branch of `Parser.factor`:
`pairs[key.value] = value`, ending by eating the closing brace. -/
def dictLoop : Nat → List (Value × AST) → PState → Except PErr (AST × PState)
  | 0, _, _ => .error .outOfFuel
  | n + 1, pairs, p =>
    if p.cur.type = .RBRACE then do
      let p ← eat .RBRACE p
      .ok (.dictE pairs, p)
    else do
      let rk ← expr n p
      let p ← eat .COLON rk.2
      let rv ← expr n p
      let kv ← keyOf rk.1
      let pairs := pyAssocSet pairs kv rv.1
      if rv.2.cur.type = .COMMA then do
        let p ← eat .COMMA rv.2
        dictLoop n pairs p
      else dictLoop n pairs rv.2

/-- `Parser.term`: a factor followed by the `* /` loop. -/
def term : Nat → PState → Except PErr (AST × PState)
  | 0, _ => .error .outOfFuel
  | n + 1, p => do
    let r ← factor n p
    termLoop n r.1 r.2

/-- The `while ... MUL, DIV` loop of `Parser.term`. -/
def termLoop : Nat → AST → PState → Except PErr (AST × PState)
  | 0, _, _ => .error .outOfFuel
  | n + 1, node, p =>
    let token := p.cur
    if token.type = .MUL ∨ token.type = .DIV then do
      let p ← eat token.type p
      let r ← factor n p
      termLoop n (.binop node token.type r.1) r.2
    else .ok (node, p)

/-- `Parser.expr`: a term followed by the `+ - /` loop (the source's loop
also lists `DIV`, though `term` has already consumed any `/`). -/
def expr : Nat → PState → Except PErr (AST × PState)
  | 0, _ => .error .outOfFuel
  | n + 1, p => do
    let r ← term n p
    exprLoop n r.1 r.2

/-- The `while ... PLUS, MINUS, DIV` loop of `Parser.expr`. -/
def exprLoop : Nat → AST → PState → Except PErr (AST × PState)
  | 0, _, _ => .error .outOfFuel
  | n + 1, node, p =>
    let token := p.cur
    if token.type = .PLUS ∨ token.type = .MINUS ∨ token.type = .DIV then do
      let p ← eat token.type p
      let r ← term n p
      exprLoop n (.binop node token.type r.1) r.2
    else .ok (node, p)

end

/-- `Parser.assignment`: an expression, upgraded to an `Assign` node when it
is a bare `Var` followed by `=`. -/
def assignment (n : Nat) (p : PState) : Except PErr (AST × PState) := do
  let r ← expr n p
  match r.1, r.2.cur.type with
  | .var v, .ASSIGN => do
    let p ← eat .ASSIGN r.2
    let rr ← expr n p
    .ok (.assign v rr.1, rr.2)
  | l, _ => .ok (l, r.2)

/-- Fuel that is always sufficient for `assignment` on the given text (each
unit of nesting or iteration consumes tokens, and every token is at least
one character). -/
def parseFuel (text : String) : Nat := 4 * text.length + 8

/-- `Parser.parse` on a fresh `Parser(Lexer(text))`: prime the lookahead with
the first token, then run `assignment`.  Trailing tokens are not checked
(the source's `parse` does not require `EOF`). -/
def parseText (text : String) : Except PErr AST :=
  match nextToken (initLex text) with
  | .error e => .error (.lexError e)
  | .ok (t, lx) =>
    match assignment (parseFuel text) ⟨lx, t⟩ with
    | .error e => .error e
    | .ok (ast, _) => .ok ast

/-- Errors raised by `Interpreter` methods of `kex_main.py`. -/
inductive RunErr where
  | zeroDivisionError
  | nameError (name : Value)
  | typeError
  | noVisitMethod
deriving Repr

/-- Numeric view used by `visit_BinOp`'s
`isinstance(..., (int, float))` branch: Python `bool` is a subclass of `int`,
so booleans count as numeric with values `0`/`1`.  The `Bool` component
records whether the operand is a `float` (drives promotion). -/
def numVal : Value → Option (Bool × Rat)
  | .int n => some (false, (n : Rat))
  | .float q => some (true, q)
  | .bool b => some (false, if b then 1 else 0)
  | _ => none

/-- Result of Python arithmetic on two numbers: `float` if either operand is
a `float`, otherwise `int` (the rational is integral in that case). -/
def numRes (isFloat : Bool) (q : Rat) : Value :=
  if isFloat then .float q else .int q.num

/-- `Interpreter.visit_BinOp` after both operands are evaluated.  `/` is
Python's true division (always `float`), guarded by the `right == 0` check;
string `+` concatenates; everything else raises `TypeError`.  A numeric pair
with an operator outside `+ - * /` falls off the `if` chain and returns
Python `None` (unreachable from the parser). -/
def visitBinOp (op : TokenType) (l r : Value) : Except RunErr Value :=
  match numVal l, numVal r with
  | some (fl, a), some (fr, b) =>
    match op with
    | .PLUS => .ok (numRes (fl || fr) (a + b))
    | .MINUS => .ok (numRes (fl || fr) (a - b))
    | .MUL => .ok (numRes (fl || fr) (a * b))
    | .DIV => if b = 0 then .error .zeroDivisionError else .ok (.float (a / b))
    | _ => .ok .pyNone
  | _, _ =>
    match l, r, op with
    | .str s, .str t, .PLUS => .ok (.str (s ++ t))
    | _, _, _ => .error .typeError

/-- The `SymbolTable`'s `symbols` dict: name-to-value bindings. -/
def Env := List (Value × Value)

mutual

/-- `Interpreter.visit`, dispatching on the node kind like the Python
visitor.  State threading: the symbol table is passed in and returned (the
second component), so mutations performed before an error are preserved,
exactly like the Python instance attribute.  `visit_Var` raises `NameError`
when `symbols.get(name)` returns `None` (missing key — or a stored `None`,
indistinguishable to `.get`). -/
def eval : AST → Env → (Except RunErr Value) × Env
  | .num v, env => (.ok v, env)
  | .var v, env =>
    match pyAssocGet env v with
    | none => (.error (.nameError v), env)
    | some .pyNone => (.error (.nameError v), env)
    | some x => (.ok x, env)
  | .assign lv rhs, env =>
    match eval rhs env with
    | (.ok v, env') => (.ok v, pyAssocSet env' lv v)
    | (.error e, env') => (.error e, env')
  | .binop l op r, env =>
    match eval l env with
    | (.error e, env') => (.error e, env')
    | (.ok lv, env') =>
      match eval r env' with
      | (.error e, env'') => (.error e, env'')
      | (.ok rv, env'') => (visitBinOp op lv rv, env'')
  | .listE es, env =>
    match evalList es env with
    | (.ok vs, env') => (.ok (.list vs), env')
    | (.error e, env') => (.error e, env')
  | .dictE prs, env =>
    match evalPairs prs env with
    | (.ok kvs, env') =>
      (.ok (.dict (kvs.foldl (fun d kv => pyAssocSet d kv.1 kv.2) [])), env')
    | (.error e, env') => (.error e, env')
  | .noneNode, env => (.error .noVisitMethod, env)

/-- The element loop of `visit_ListExpr`. -/
def evalList : List AST → Env → (Except RunErr (List Value)) × Env
  | [], env => (.ok [], env)
  | e :: es, env =>
    match eval e env with
    | (.ok v, env') =>
      match evalList es env' with
      | (.ok vs, env'') => (.ok (v :: vs), env'')
      | (.error err, env'') => (.error err, env'')
    | (.error err, env') => (.error err, env')

/-- The value-evaluating comprehension of `visit_DictExpr` (keys are already
values from parse time). -/
def evalPairs : List (Value × AST) → Env → (Except RunErr (List (Value × Value))) × Env
  | [], env => (.ok [], env)
  | (k, a) :: rest, env =>
    match eval a env with
    | (.ok v, env') =>
      match evalPairs rest env' with
      | (.ok kvs, env'') => (.ok ((k, v) :: kvs), env'')
      | (.error err, env'') => (.error err, env'')
    | (.error err, env') => (.error err, env')

end

/-- Any error a statement can raise: lexing/parsing (including the lexer
errors raised through `eat`) or evaluation. -/
inductive KErr where
  | parseError (e : PErr)
  | runtimeError (e : RunErr)
deriving Repr

/-- One REPL iteration of `main` minus the printing: lex+parse the line,
evaluate the tree against the session environment, and return the result (or
the caught error) together with the environment afterwards. -/
def runLine (text : String) (env : Env) : (Except KErr Value) × Env :=
  match parseText text with
  | .error e => (.error (.parseError e), env)
  | .ok ast =>
    match eval ast env with
    | (.ok v, env') => (.ok v, env')
    | (.error e, env') => (.error (.runtimeError e), env')

mutual

/-- No `Assign` node anywhere in the tree.  `Parser.expr` (and everything
below it) can only produce such trees: `Assign` is built solely at the root
by `Parser.assignment`. -/
def noAssign : AST → Bool
  | .num _ => true
  | .var _ => true
  | .binop l _ r => noAssign l && noAssign r
  | .assign _ _ => false
  | .listE es => noAssignList es
  | .dictE prs => noAssignPairs prs
  | .noneNode => true

def noAssignList : List AST → Bool
  | [] => true
  | e :: es => noAssign e && noAssignList es

def noAssignPairs : List (Value × AST) → Bool
  | [] => true
  | (_, a) :: rest => noAssign a && noAssignPairs rest

end

/-- Shape of any parsed tree: an `Assign` can only sit at the root, with an
assignment-free right-hand side. -/
def rootNoAssign : AST → Bool
  | .assign _ rhs => noAssign rhs
  | a => noAssign a

@[simp] theorem advance_text (st : LexState) : (advance st).text = st.text := rfl

@[simp] theorem advance_pos (st : LexState) : (advance st).pos = st.pos + 1 := rfl

theorem currentChar_some_lt {st : LexState} {c : Char}
    (h : currentChar st = some c) : st.pos < st.text.length := by
  unfold currentChar at h
  exact (List.getElem?_eq_some.mp h).1

theorem currentChar_none_of_le {st : LexState} (h : st.text.length ≤ st.pos) :
    currentChar st = none := by
  unfold currentChar
  exact List.getElem?_eq_none h

theorem remaining_pos {st : LexState} {c : Char} (h : currentChar st = some c) :
    remaining st = remaining (advance st) + 1 := by
  have := currentChar_some_lt h
  unfold remaining
  simp only [advance_text, advance_pos]
  omega

/-- One-step unfolding of `skipWs` in terms of itself. -/
theorem skipWs_eq (st : LexState) :
    skipWs st = match currentChar st with
      | some c => if c.isWhitespace then skipWs (advance st) else st
      | none => st := by
  unfold skipWs
  cases h : currentChar st with
  | none =>
    cases hr : remaining st <;> simp [skipWsAux, h]
  | some c =>
    rw [remaining_pos h]
    simp [skipWsAux, h]

theorem skipWsAux_text : ∀ (n : Nat) (st : LexState), (skipWsAux n st).text = st.text := by
  intro n
  induction n with
  | zero => intro st; rfl
  | succ n ih =>
    intro st
    unfold skipWsAux
    cases h : currentChar st
    · rfl
    · simp only []
      split
      · rw [ih, advance_text]
      · rfl

theorem skipWs_text (st : LexState) : (skipWs st).text = st.text :=
  skipWsAux_text _ _

theorem skipWsAux_pos_le : ∀ (n : Nat) (st : LexState), st.pos ≤ (skipWsAux n st).pos := by
  intro n
  induction n with
  | zero => intro st; exact Nat.le_refl _
  | succ n ih =>
    intro st
    unfold skipWsAux
    cases h : currentChar st
    · exact Nat.le_refl _
    · simp only []
      split
      · have h1 := ih (advance st)
        simp only [advance_pos] at h1
        omega
      · exact Nat.le_refl _

theorem skipWs_pos_le (st : LexState) : st.pos ≤ (skipWs st).pos :=
  skipWsAux_pos_le _ _

theorem skipWs_pos_lt {st : LexState} {c : Char}
    (h : currentChar st = some c) (hws : c.isWhitespace) :
    st.pos < (skipWs st).pos := by
  rw [skipWs_eq, h]
  simp only []
  rw [if_pos hws]
  have h1 := skipWs_pos_le (advance st)
  simp only [advance_pos] at h1
  omega

theorem skipLineAux_text : ∀ (n : Nat) (st : LexState), (skipLineAux n st).text = st.text := by
  intro n
  induction n with
  | zero => intro st; rfl
  | succ n ih =>
    intro st
    unfold skipLineAux
    cases h : currentChar st
    · rfl
    · simp only []
      split
      · rfl
      · rw [ih, advance_text]

theorem skipLine_text (st : LexState) : (skipLine st).text = st.text :=
  skipLineAux_text _ _

theorem skipLineAux_pos_le : ∀ (n : Nat) (st : LexState), st.pos ≤ (skipLineAux n st).pos := by
  intro n
  induction n with
  | zero => intro st; exact Nat.le_refl _
  | succ n ih =>
    intro st
    unfold skipLineAux
    cases h : currentChar st
    · exact Nat.le_refl _
    · simp only []
      split
      · exact Nat.le_refl _
      · have h1 := ih (advance st)
        simp only [advance_pos] at h1
        omega

theorem skipLine_pos_le (st : LexState) : st.pos ≤ (skipLine st).pos :=
  skipLineAux_pos_le _ _

theorem blockLoopAux_text : ∀ (n : Nat) (st : LexState), (blockLoopAux n st).text = st.text := by
  intro n
  induction n with
  | zero => intro st; rfl
  | succ n ih =>
    intro st
    unfold blockLoopAux
    cases h : currentChar st
    · rfl
    · simp only []
      split
      · simp
      · rw [ih, advance_text]

theorem blockLoop_text (st : LexState) : (blockLoop st).text = st.text :=
  blockLoopAux_text _ _

theorem blockLoopAux_pos_le : ∀ (n : Nat) (st : LexState), st.pos ≤ (blockLoopAux n st).pos := by
  intro n
  induction n with
  | zero => intro st; exact Nat.le_refl _
  | succ n ih =>
    intro st
    unfold blockLoopAux
    cases h : currentChar st
    · exact Nat.le_refl _
    · simp only []
      split
      · simp only [advance_pos]
        omega
      · have h1 := ih (advance st)
        simp only [advance_pos] at h1
        omega

theorem blockLoop_pos_le (st : LexState) : st.pos ≤ (blockLoop st).pos :=
  blockLoopAux_pos_le _ _

theorem skipComment_text (st : LexState) : (skipComment st).2.text = st.text := by
  unfold skipComment
  simp only []
  split <;> simp [skipLine_text, blockLoop_text]

theorem skipComment_pos_lt (st : LexState) : st.pos < (skipComment st).2.pos := by
  unfold skipComment
  simp only []
  split
  · have h1 := skipLine_pos_le (advance st)
    simp only [advance_pos] at h1 ⊢
    omega
  · have h1 := blockLoop_pos_le (advance (advance st))
    simp only [advance_pos] at h1 ⊢
    omega
  · simp

theorem scanNumber_eq (st : LexState) :
    scanNumber st = match currentChar st with
      | some c =>
        if c.isDigit ∨ c = '.' then
          (c :: (scanNumber (advance st)).1, (scanNumber (advance st)).2)
        else ([], st)
      | none => ([], st) := by
  unfold scanNumber
  cases h : currentChar st with
  | none => cases hr : remaining st <;> simp [scanNumberAux, h]
  | some c =>
    rw [remaining_pos h]
    simp [scanNumberAux, h]

theorem scanNumberAux_text : ∀ (n : Nat) (st : LexState),
    (scanNumberAux n st).2.text = st.text := by
  intro n
  induction n with
  | zero => intro st; rfl
  | succ n ih =>
    intro st
    unfold scanNumberAux
    cases h : currentChar st
    · rfl
    · simp only []
      split
      · rw [ih, advance_text]
      · rfl

theorem scanNumber_text (st : LexState) : (scanNumber st).2.text = st.text :=
  scanNumberAux_text _ _

theorem scanNumberAux_pos : ∀ (n : Nat) (st : LexState),
    (scanNumberAux n st).2.pos = st.pos + (scanNumberAux n st).1.length := by
  intro n
  induction n with
  | zero => intro st; rfl
  | succ n ih =>
    intro st
    unfold scanNumberAux
    cases h : currentChar st
    · simp
    · simp only []
      split
      · have h1 := ih (advance st)
        simp only [advance_pos] at h1
        simp only [List.length_cons]
        omega
      · simp

theorem scanNumber_pos (st : LexState) :
    (scanNumber st).2.pos = st.pos + (scanNumber st).1.length :=
  scanNumberAux_pos _ _

theorem scanNumberAux_chars : ∀ (n : Nat) (st : LexState),
    ∀ c ∈ (scanNumberAux n st).1, c.isDigit ∨ c = '.' := by
  intro n
  induction n with
  | zero => intro st; simp [scanNumberAux]
  | succ n ih =>
    intro st
    unfold scanNumberAux
    cases h : currentChar st
    · simp
    · simp only []
      split
      next hd =>
        intro d hdm
        rcases List.mem_cons.mp hdm with h1 | h1
        · exact h1 ▸ hd
        · exact ih (advance st) d h1
      next => simp
  

theorem scanNumber_chars (st : LexState) :
    ∀ c ∈ (scanNumber st).1, c.isDigit ∨ c = '.' :=
  scanNumberAux_chars _ _

theorem scanNumber_cons {st : LexState} {c : Char}
    (h : currentChar st = some c) (hd : c.isDigit ∨ c = '.') :
    (scanNumber st).1 = c :: (scanNumber (advance st)).1 := by
  rw [scanNumber_eq, h]
  simp only []
  rw [if_pos hd]

theorem stringLoop_eq (st : LexState) (acc : List Char) :
    stringLoop st acc = match currentChar st with
      | some c =>
        if c = '"' then (acc, st, true) else stringLoop (advance st) (acc ++ [c])
      | none => (acc, st, false) := by
  unfold stringLoop
  cases h : currentChar st with
  | none => cases hr : remaining st <;> simp [stringLoopAux, h]
  | some c =>
    rw [remaining_pos h]
    simp [stringLoopAux, h]

theorem stringLoopAux_text : ∀ (n : Nat) (st : LexState) (acc : List Char),
    (stringLoopAux n st acc).2.1.text = st.text := by
  intro n
  induction n with
  | zero => intro st acc; rfl
  | succ n ih =>
    intro st acc
    unfold stringLoopAux
    cases h : currentChar st
    · rfl
    · simp only []
      split
      · rfl
      · rw [ih, advance_text]

theorem stringLoop_text (st : LexState) (acc : List Char) :
    (stringLoop st acc).2.1.text = st.text :=
  stringLoopAux_text _ _ _

theorem stringLoopAux_pos_le : ∀ (n : Nat) (st : LexState) (acc : List Char),
    st.pos ≤ (stringLoopAux n st acc).2.1.pos := by
  intro n
  induction n with
  | zero => intro st acc; exact Nat.le_refl _
  | succ n ih =>
    intro st acc
    unfold stringLoopAux
    cases h : currentChar st with
    | none => exact Nat.le_refl _
    | some c =>
      simp only []
      split
      · exact Nat.le_refl _
      · have h1 := ih (advance st) (acc ++ [c])
        simp only [advance_pos] at h1
        omega

theorem stringLoop_pos_le (st : LexState) (acc : List Char) :
    st.pos ≤ (stringLoop st acc).2.1.pos :=
  stringLoopAux_pos_le _ _ _

theorem scanIdent_eq (st : LexState) :
    scanIdent st = match currentChar st with
      | some c =>
        if c.isAlphanum ∨ c = '_' then
          (c :: (scanIdent (advance st)).1, (scanIdent (advance st)).2)
        else ([], st)
      | none => ([], st) := by
  unfold scanIdent
  cases h : currentChar st with
  | none => cases hr : remaining st <;> simp [scanIdentAux, h]
  | some c =>
    rw [remaining_pos h]
    simp [scanIdentAux, h]

theorem scanIdentAux_text : ∀ (n : Nat) (st : LexState),
    (scanIdentAux n st).2.text = st.text := by
  intro n
  induction n with
  | zero => intro st; rfl
  | succ n ih =>
    intro st
    unfold scanIdentAux
    cases h : currentChar st
    · rfl
    · simp only []
      split
      · rw [ih, advance_text]
      · rfl

theorem scanIdent_text (st : LexState) : (scanIdent st).2.text = st.text :=
  scanIdentAux_text _ _

theorem scanIdentAux_pos : ∀ (n : Nat) (st : LexState),
    (scanIdentAux n st).2.pos = st.pos + (scanIdentAux n st).1.length := by
  intro n
  induction n with
  | zero => intro st; rfl
  | succ n ih =>
    intro st
    unfold scanIdentAux
    cases h : currentChar st
    · simp
    · simp only []
      split
      · have h1 := ih (advance st)
        simp only [advance_pos] at h1
        simp only [List.length_cons]
        omega
      · simp

theorem scanIdent_pos (st : LexState) :
    (scanIdent st).2.pos = st.pos + (scanIdent st).1.length :=
  scanIdentAux_pos _ _

theorem scanIdent_cons {st : LexState} {c : Char}
    (h : currentChar st = some c) (hd : c.isAlphanum ∨ c = '_') :
    (scanIdent st).1 = c :: (scanIdent (advance st)).1 := by
  rw [scanIdent_eq, h]
  simp only []
  rw [if_pos hd]

theorem number_progress {st : LexState} {c : Char} {t : Token} {st' : LexState}
    (h : currentChar st = some c) (hd : c.isDigit ∨ c = '.')
    (hok : number st = .ok (t, st')) :
    st.pos < st'.pos ∧ st'.text = st.text ∧ t.type ≠ .EOF := by
  unfold number at hok
  have hcons := scanNumber_cons h hd
  have hpos := scanNumber_pos st
  have htext := scanNumber_text st
  simp only [] at hok
  split at hok
  · split at hok
    · cases hok
      refine ⟨?_, htext, by simp⟩
      rw [hpos, hcons]
      simp
    · cases hok
  · split at hok
    · cases hok
      refine ⟨?_, htext, by simp⟩
      rw [hpos, hcons]
      simp
    · cases hok

theorem string_progress {st : LexState} {t : Token} {st' : LexState}
    (hok : string st = .ok (t, st')) :
    st.pos < st'.pos ∧ st'.text = st.text ∧ t.type ≠ .EOF := by
  unfold string at hok
  have hpos := stringLoop_pos_le (advance st) []
  have htext := stringLoop_text (advance st) []
  simp only [advance_pos, advance_text] at hpos htext
  split at hok
  next acc st1 heq =>
    cases hok
    rw [heq] at hpos htext
    simp only [] at hpos htext
    refine ⟨?_, ?_, by simp⟩
    · simp only [advance_pos]
      omega
    · simp only [advance_text]
      exact htext
  next acc st1 heq => cases hok

theorem identifier_progress {st : LexState} {c : Char}
    (h : currentChar st = some c) (hd : c.isAlphanum ∨ c = '_') :
    st.pos < (identifier st).2.pos ∧ (identifier st).2.text = st.text ∧
      (identifier st).1.type ≠ .EOF := by
  unfold identifier
  have hcons := scanIdent_cons h hd
  have hpos := scanIdent_pos st
  have htext := scanIdent_text st
  simp only []
  refine ⟨?_, ?_, ?_⟩
  · split
    · rw [hpos, hcons]; simp
    · split
      · rw [hpos, hcons]; simp
      · rw [hpos, hcons]; simp
  · split
    · exact htext
    · split
      · exact htext
      · exact htext
  · split
    · simp
    · split
      · simp
      · simp

/-- Every successful `get_next_token` call either returns the `EOF` token or
strictly advances the cursor (and never changes the text). -/
theorem nextTokenAux_progress : ∀ (n : Nat) (st : LexState) (t : Token) (st' : LexState),
    nextTokenAux n st = .ok (t, st') →
    t.type = .EOF ∨ (st.pos < st'.pos ∧ st'.text = st.text) := by
  intro n
  induction n with
  | zero =>
    intro st t st' hok
    unfold nextTokenAux at hok
    cases hok
    left
    rfl
  | succ n ih =>
    intro st t st' hok
    unfold nextTokenAux at hok
    cases h : currentChar st with
    | none =>
      rw [h] at hok
      cases hok
      left
      rfl
    | some c =>
      rw [h] at hok
      simp only [] at hok
      have hlt := currentChar_some_lt h
      by_cases h1 : c.isWhitespace
      · rw [if_pos h1] at hok
        rcases ih (skipWs st) t st' hok with hEof | ⟨hp, ht⟩
        · exact Or.inl hEof
        · right
          have hq1 := skipWs_pos_lt h h1
          have hq2 := skipWs_text st
          exact ⟨by omega, by rw [ht, hq2]⟩
      rw [if_neg h1] at hok
      by_cases h2 : c = '/'
      · rw [if_pos h2] at hok
        rcases hsc : skipComment st with ⟨tOpt, st0⟩
        have hp := skipComment_pos_lt st
        have ht := skipComment_text st
        rw [hsc] at hok hp ht
        simp only [] at hp ht
        cases tOpt with
        | some t0 =>
          simp only [] at hok
          cases hok
          exact Or.inr ⟨hp, ht⟩
        | none =>
          simp only [] at hok
          rcases ih st0 t st' hok with hEof | ⟨hp2, ht2⟩
          · exact Or.inl hEof
          · right
            exact ⟨by omega, by rw [ht2, ht]⟩
      rw [if_neg h2] at hok
      by_cases h3 : c.isDigit ∨ c = '.'
      · rw [if_pos h3] at hok
        have := number_progress h h3 hok
        exact Or.inr ⟨this.1, this.2.1⟩
      rw [if_neg h3] at hok
      by_cases h4 : c = '"'
      · rw [if_pos h4] at hok
        have := string_progress hok
        exact Or.inr ⟨this.1, this.2.1⟩
      rw [if_neg h4] at hok
      by_cases h5 : c.isAlpha ∨ c = '_'
      · rw [if_pos h5] at hok
        injection hok with hpair
        have hal : c.isAlphanum ∨ c = '_' := by
          rcases h5 with h5 | h5
          · exact Or.inl (by simp [Char.isAlphanum, h5])
          · exact Or.inr h5
        have hprog := identifier_progress h hal
        rw [hpair] at hprog
        exact Or.inr ⟨hprog.1, hprog.2.1⟩
      rw [if_neg h5] at hok
      by_cases h6 : c = '='
      · rw [if_pos h6] at hok
        cases hok
        right
        exact ⟨by simp, by simp⟩
      rw [if_neg h6] at hok
      by_cases h7 : c = '+'
      · rw [if_pos h7] at hok
        cases hok
        right
        exact ⟨by simp, by simp⟩
      rw [if_neg h7] at hok
      by_cases h8 : c = '-'
      · rw [if_pos h8] at hok
        cases hok
        right
        exact ⟨by simp, by simp⟩
      rw [if_neg h8] at hok
      by_cases h9 : c = '*'
      · rw [if_pos h9] at hok
        cases hok
        right
        exact ⟨by simp, by simp⟩
      rw [if_neg h9] at hok
      by_cases h10 : c = '('
      · rw [if_pos h10] at hok
        cases hok
        right
        exact ⟨by simp, by simp⟩
      rw [if_neg h10] at hok
      by_cases h11 : c = ')'
      · rw [if_pos h11] at hok
        cases hok
        right
        exact ⟨by simp, by simp⟩
      rw [if_neg h11] at hok
      by_cases h12 : c = '['
      · rw [if_pos h12] at hok
        cases hok
        right
        exact ⟨by simp, by simp⟩
      rw [if_neg h12] at hok
      by_cases h13 : c = ']'
      · rw [if_pos h13] at hok
        cases hok
        right
        exact ⟨by simp, by simp⟩
      rw [if_neg h13] at hok
      by_cases h14 : c = '\x7b'
      · rw [if_pos h14] at hok
        cases hok
        right
        exact ⟨by simp, by simp⟩
      rw [if_neg h14] at hok
      by_cases h15 : c = '\x7d'
      · rw [if_pos h15] at hok
        cases hok
        right
        exact ⟨by simp, by simp⟩
      rw [if_neg h15] at hok
      by_cases h16 : c = ','
      · rw [if_pos h16] at hok
        cases hok
        right
        exact ⟨by simp, by simp⟩
      rw [if_neg h16] at hok
      by_cases h17 : c = ':'
      · rw [if_pos h17] at hok
        cases hok
        right
        exact ⟨by simp, by simp⟩
      rw [if_neg h17] at hok
      exact absurd hok (by simp)

theorem nextToken_at_end {st : LexState} (h : st.text.length ≤ st.pos) :
    nextToken st = .ok (⟨.EOF, .pyNone, st.line, st.column⟩, st) := by
  unfold nextToken nextTokenAux
  rw [currentChar_none_of_le h]

theorem nextToken_progress {st : LexState} {t : Token} {st' : LexState}
    (h : nextToken st = .ok (t, st')) :
    t.type = .EOF ∨ (st.pos < st'.pos ∧ st'.text = st.text) :=
  nextTokenAux_progress _ _ _ _ h

theorem nextToken_eof_of_remaining_zero {st : LexState} {t : Token} {st' : LexState}
    (h : nextToken st = .ok (t, st')) (hne : t.type ≠ .EOF) :
    st.pos < st.text.length := by
  by_contra hc
  rw [nextToken_at_end (by omega)] at h
  cases h
  exact hne rfl

/-- A successful `tokenizeAux` run with sufficient fuel produces a list whose
last element is the unique `EOF` token. -/
theorem tokenizeAux_spec : ∀ (n : Nat) (st : LexState), remaining st < n →
    ∀ ts, tokenizeAux n st = .ok ts →
    (∃ t, ts.getLast? = some t ∧ t.type = .EOF) ∧
      ts.countP (fun u => u.type == .EOF) = 1 := by
  intro n
  induction n with
  | zero => intro st h; omega
  | succ n ih =>
    intro st hfuel ts hok
    unfold tokenizeAux at hok
    cases hnt : nextToken st with
    | error e => rw [hnt] at hok; cases hok
    | ok r =>
      rcases r with ⟨t, st1⟩
      rw [hnt] at hok
      simp only [] at hok
      by_cases hEof : t.type = .EOF
      · rw [if_pos hEof] at hok
        cases hok
        refine ⟨⟨t, rfl, hEof⟩, ?_⟩
        simp [List.countP_cons, hEof]
      · rw [if_neg hEof] at hok
        rcases nextToken_progress hnt with h1 | ⟨hp, htext⟩
        · exact absurd h1 hEof
        · have hlen := nextToken_eof_of_remaining_zero hnt hEof
          have hrem : remaining st1 < n := by
            unfold remaining at hfuel ⊢
            rw [htext]
            omega
          cases hrest : tokenizeAux n st1 with
          | error e => rw [hrest] at hok; cases hok
          | ok ts1 =>
            rw [hrest] at hok
            simp only [] at hok
            cases hok
            rcases ih st1 hrem ts1 hrest with ⟨⟨tl, hlast, htl⟩, hcount⟩
            constructor
            · refine ⟨tl, ?_, htl⟩
              cases ts1 with
              | nil => simp at hlast
              | cons a rest => rw [List.getLast?_cons_cons]; exact hlast
            · rw [List.countP_cons]
              simp only [hcount]
              simp [hEof]

/-- The token stream of any text that scans without error ends in exactly
one `EOF` token. -/
theorem tokenize_spec {text : String} {ts : List Token}
    (h : tokenize text = .ok ts) :
    (∃ t, ts.getLast? = some t ∧ t.type = .EOF) ∧
      ts.countP (fun u => u.type == .EOF) = 1 := by
  refine tokenizeAux_spec (text.length + 1) (initLex text) ?_ ts h
  unfold remaining initLex
  simp

theorem currentChar_none_le {st : LexState} (h : currentChar st = none) :
    st.text.length ≤ st.pos := by
  unfold currentChar at h
  exact List.getElem?_eq_none_iff.mp h

theorem currentChar_some_getElem {st : LexState} {c : Char}
    (h : currentChar st = some c) :
    st.text.drop st.pos = c :: st.text.drop (st.pos + 1) := by
  obtain ⟨hlt, hc⟩ := List.getElem?_eq_some.mp h
  rw [List.drop_eq_getElem_cons hlt, hc]

/-- The string loop consumes exactly the characters up to the first `"` (kept
raw, appended to the accumulator) and reports whether a `"` was found. -/
theorem stringLoopAux_spec : ∀ (n : Nat) (st : LexState) (acc : List Char),
    remaining st ≤ n →
    (stringLoopAux n st acc).1 =
      acc ++ (st.text.drop st.pos).takeWhile (fun c => c != '"') ∧
    (stringLoopAux n st acc).2.2 = (st.text.drop st.pos).any (fun c => c == '"') := by
  intro n
  induction n with
  | zero =>
    intro st acc hle
    have hpos : st.text.length ≤ st.pos := by unfold remaining at hle; omega
    rw [List.drop_eq_nil_of_le hpos]
    simp [stringLoopAux]
  | succ n ih =>
    intro st acc hle
    unfold stringLoopAux
    cases h : currentChar st with
    | none =>
      have hpos := currentChar_none_le h
      rw [List.drop_eq_nil_of_le hpos]
      simp
    | some c =>
      simp only []
      rw [currentChar_some_getElem h]
      by_cases hq : c = '"'
      · subst hq
        simp
      · rw [if_neg hq]
        have hrem : remaining (advance st) ≤ n := by
          have := remaining_pos h
          omega
        have hIH := ih (advance st) (acc ++ [c]) hrem
        simp only [advance_text, advance_pos] at hIH
        constructor
        · rw [hIH.1]
          simp [List.takeWhile_cons, hq]
        · rw [hIH.2]
          simp [List.any_cons, hq]

theorem stringLoop_spec (st : LexState) (acc : List Char) :
    (stringLoop st acc).1 =
      acc ++ (st.text.drop st.pos).takeWhile (fun c => c != '"') ∧
    (stringLoop st acc).2.2 = (st.text.drop st.pos).any (fun c => c == '"') :=
  stringLoopAux_spec _ _ _ (Nat.le_refl _)

/-- `Lexer.string` at an opening quote: no closing quote before end of input
raises the unterminated-string error (carrying a line and the opening
quote's position); with a closing quote the token's literal is exactly the
raw characters between the quotes. -/
theorem string_spec {st : LexState} (hcur : currentChar st = some '"') :
    (('"' ∉ st.text.drop (st.pos + 1)) →
      ∃ l, string st = .error (.unterminatedString l st.pos)) ∧
    ('"' ∈ st.text.drop (st.pos + 1) →
      ∃ l st', string st =
        .ok (⟨.STRING,
              .str (String.mk ((st.text.drop (st.pos + 1)).takeWhile (fun c => c != '"'))),
              l, st.pos⟩, st')) := by
  have hspec := stringLoop_spec (advance st) []
  simp only [advance_text, advance_pos, List.nil_append] at hspec
  unfold string
  rcases hsl : stringLoop (advance st) [] with ⟨acc, st1, f⟩
  rw [hsl] at hspec
  simp only [] at hspec
  constructor
  · intro hnot
    have hf : f = false := by
      rw [hspec.2]
      simp only [List.any_eq_false]
      intro c hc
      simp only [beq_iff_eq]
      intro hcontra
      exact hnot (hcontra ▸ hc)
    subst hf
    exact ⟨st1.line, rfl⟩
  · intro hmem
    have hf : f = true := by
      rw [hspec.2]
      simp only [List.any_eq_true]
      exact ⟨'"', hmem, by simp⟩
    subst hf
    refine ⟨st1.line, advance st1, ?_⟩
    rw [hspec.1]

theorem intOfChars_of_digits {cs : List Char} (hne : cs ≠ [])
    (hall : ∀ c ∈ cs, c.isDigit ∨ c = '.') (hcount : cs.count '.' = 0) :
    intOfChars cs = some ((digitsVal cs : Int)) := by
  have hdigits : cs.all Char.isDigit := by
    rw [List.all_eq_true]
    intro c hc
    rcases hall c hc with h | h
    · exact h
    · exfalso
      rw [List.count_eq_zero] at hcount
      exact hcount (h ▸ hc)
  unfold intOfChars
  rw [if_pos ⟨hne, hdigits⟩]

theorem dropWhile_head_not {p : Char → Bool} :
    ∀ (l : List Char) {a : Char} {t : List Char}, l.dropWhile p = a :: t → p a = false := by
  intro l
  induction l with
  | nil => intro a t h; cases h
  | cons c rest ih =>
    intro a t h
    rw [List.dropWhile_cons] at h
    split at h
    · exact ih h
    · cases h
      next hne => simpa using hne

theorem count_dot_parts (cs : List Char) :
    cs.count '.' = (cs.dropWhile (fun c => c ≠ '.')).count '.' := by
  conv_lhs => rw [← List.takeWhile_append_dropWhile (p := fun c => c ≠ '.') (l := cs)]
  rw [List.count_append]
  have : (cs.takeWhile (fun c => c ≠ '.')).count '.' = 0 := by
    rw [List.count_eq_zero]
    intro hmem
    have := List.mem_takeWhile_imp hmem
    simp at this
  omega

theorem floatOfChars_many_dots {cs : List Char} (hcount : 2 ≤ cs.count '.') :
    floatOfChars cs = none := by
  unfold floatOfChars
  have hrest := count_dot_parts cs
  cases hd : cs.dropWhile (fun c => c ≠ '.') with
  | nil =>
    rw [hd] at hrest
    simp at hrest
    omega
  | cons d frac =>
    have hdot : d = '.' := by
      have := dropWhile_head_not cs hd
      simpa using this
    subst hdot
    simp only []
    rw [hd] at hrest
    simp only [List.count_cons_self] at hrest
    have hfrac : 1 ≤ frac.count '.' := by omega
    have hmem : '.' ∈ frac := by
      by_contra hnot
      rw [← List.count_eq_zero] at hnot
      omega
    rw [if_neg]
    intro ⟨_, hall, _⟩
    rw [List.all_eq_true] at hall
    have := hall '.' hmem
    simp [Char.isDigit] at this

theorem floatOfChars_one_dot {cs : List Char}
    (hall : ∀ c ∈ cs, c.isDigit ∨ c = '.') (hcount : cs.count '.' = 1)
    (hdig : ∃ c ∈ cs, c.isDigit) :
    ∃ q, floatOfChars cs = some q := by
  unfold floatOfChars
  have hsplit := List.takeWhile_append_dropWhile (p := fun c => c ≠ '.') (l := cs)
  have hrest := count_dot_parts cs
  have hpre_digit : ∀ c ∈ cs.takeWhile (fun c => c ≠ '.'), c.isDigit := by
    intro c hc
    have hne : c ≠ '.' := by simpa using List.mem_takeWhile_imp hc
    have hmem : c ∈ cs := hsplit ▸ List.mem_append_left _ hc
    rcases hall c hmem with h | h
    · exact h
    · exact absurd h hne
  cases hd : cs.dropWhile (fun c => c ≠ '.') with
  | nil =>
    rw [hd] at hrest
    simp at hrest
    omega
  | cons d frac =>
    have hdot : d = '.' := by
      have := dropWhile_head_not cs hd
      simpa using this
    subst hdot
    simp only []
    rw [hd] at hrest
    simp only [List.count_cons_self] at hrest
    have hfrac0 : frac.count '.' = 0 := by omega
    have hfrac_digit : ∀ c ∈ frac, c.isDigit := by
      intro c hc
      have hmem : c ∈ cs := by
        rw [← hsplit, hd]
        exact List.mem_append_right _ (List.mem_cons_of_mem _ hc)
      rcases hall c hmem with h | h
      · exact h
      · exfalso
        rw [List.count_eq_zero] at hfrac0
        exact hfrac0 (h ▸ hc)
    have hne : cs.takeWhile (fun c => c ≠ '.') ≠ [] ∨ frac ≠ [] := by
      rcases hdig with ⟨c, hc, hcdig⟩
      rw [← hsplit, hd] at hc
      rcases List.mem_append.mp hc with h | h
      · left
        intro hnil
        rw [hnil] at h
        cases h
      · rcases List.mem_cons.mp h with h | h
        · subst h
          simp [Char.isDigit] at hcdig
        · right
          intro hnil
          rw [hnil] at h
          cases h
    rw [if_pos]
    · exact ⟨_, rfl⟩
    · refine ⟨?_, ?_, hne⟩
      · rw [List.all_eq_true]
        exact hpre_digit
      · rw [List.all_eq_true]
        exact hfrac_digit

/-- Behaviour of `Lexer.number` as a function of the consumed literal: the
scan takes digits and dots only; with no dot the token is `INTEGER`, with
exactly one dot (and a digit) it is `FLOAT`, and with two or more dots the
call raises `ValueError` instead of producing a token. -/
theorem number_spec (st : LexState) :
    (∀ c ∈ (scanNumber st).1, c.isDigit ∨ c = '.') ∧
    ((scanNumber st).1 ≠ [] → (scanNumber st).1.count '.' = 0 →
      number st = .ok (⟨.INTEGER, .int (digitsVal (scanNumber st).1),
                        (scanNumber st).2.line, st.pos⟩, (scanNumber st).2)) ∧
    ((scanNumber st).1.count '.' = 1 → (∃ c ∈ (scanNumber st).1, c.isDigit) →
      ∃ q, number st = .ok (⟨.FLOAT, .float q, (scanNumber st).2.line, st.pos⟩,
                            (scanNumber st).2)) ∧
    (2 ≤ (scanNumber st).1.count '.' →
      number st = .error (.valueError (String.mk (scanNumber st).1))) := by
  have hchars := scanNumber_chars st
  refine ⟨hchars, ?_, ?_, ?_⟩
  · intro hne hcount
    have hnotmem : ¬ '.' ∈ (scanNumber st).1 := List.count_eq_zero.mp hcount
    have hcontains : (scanNumber st).1.contains '.' = false := by
      rw [← Bool.not_eq_true, List.elem_iff]
      exact hnotmem
    unfold number
    simp only []
    rw [hcontains]
    simp only [Bool.false_eq_true, if_false]
    rw [intOfChars_of_digits hne hchars hcount]
  · intro hcount hdig
    have hmem : '.' ∈ (scanNumber st).1 := by
      rw [← List.count_pos_iff]
      omega
    have hcontains : (scanNumber st).1.contains '.' = true := List.elem_iff.mpr hmem
    obtain ⟨q, hq⟩ := floatOfChars_one_dot hchars hcount hdig
    refine ⟨q, ?_⟩
    unfold number
    simp only []
    rw [hcontains]
    simp only [if_true]
    rw [hq]
  · intro hcount
    have hmem : '.' ∈ (scanNumber st).1 := by
      rw [← List.count_pos_iff]
      omega
    have hcontains : (scanNumber st).1.contains '.' = true := List.elem_iff.mpr hmem
    unfold number
    simp only []
    rw [hcontains]
    simp only [if_true]
    rw [floatOfChars_many_dots hcount]

mutual

/-- Evaluating an assignment-free tree never mutates the symbol table (the
only write is in `visit_Assign`). -/
theorem eval_env_eq : ∀ (a : AST) (env : Env), noAssign a = true → (eval a env).2 = env
  | .num _, env, _ => rfl
  | .var v, env, _ => by
    unfold eval
    split <;> rfl
  | .binop l op r, env, h => by
    have hh := h
    unfold noAssign at hh
    rw [Bool.and_eq_true] at hh
    unfold eval
    rcases hl : eval l env with ⟨resl, env1⟩
    have henv1 : env1 = env := by
      have := eval_env_eq l env hh.1
      rw [hl] at this
      exact this
    cases resl with
    | error e => simp only []; exact henv1
    | ok lv =>
      simp only []
      rcases hr : eval r env1 with ⟨resr, env2⟩
      have henv2 : env2 = env1 := by
        have := eval_env_eq r env1 hh.2
        rw [hr] at this
        exact this
      cases resr with
      | error e => simp only []; rw [henv2, henv1]
      | ok rv => simp only []; rw [henv2, henv1]
  | .assign lv rhs, env, h => by
    unfold noAssign at h
    cases h
  | .listE es, env, h => by
    unfold noAssign at h
    unfold eval
    rcases he : evalList es env with ⟨res, env1⟩
    have henv1 : env1 = env := by
      have := evalList_env_eq es env h
      rw [he] at this
      exact this
    cases res <;> simp only [] <;> exact henv1
  | .dictE prs, env, h => by
    unfold noAssign at h
    unfold eval
    rcases he : evalPairs prs env with ⟨res, env1⟩
    have henv1 : env1 = env := by
      have := evalPairs_env_eq prs env h
      rw [he] at this
      exact this
    cases res <;> simp only [] <;> exact henv1
  | .noneNode, env, _ => rfl

theorem evalList_env_eq : ∀ (es : List AST) (env : Env),
    noAssignList es = true → (evalList es env).2 = env
  | [], env, _ => rfl
  | e :: es, env, h => by
    have hh := h
    unfold noAssignList at hh
    rw [Bool.and_eq_true] at hh
    unfold evalList
    rcases he : eval e env with ⟨res, env1⟩
    have henv1 : env1 = env := by
      have := eval_env_eq e env hh.1
      rw [he] at this
      exact this
    cases res with
    | error err => simp only []; exact henv1
    | ok v =>
      simp only []
      rcases hes : evalList es env1 with ⟨res2, env2⟩
      have henv2 : env2 = env1 := by
        have := evalList_env_eq es env1 hh.2
        rw [hes] at this
        exact this
      cases res2 <;> simp only [] <;> rw [henv2, henv1]

theorem evalPairs_env_eq : ∀ (prs : List (Value × AST)) (env : Env),
    noAssignPairs prs = true → (evalPairs prs env).2 = env
  | [], env, _ => rfl
  | (k, a) :: rest, env, h => by
    have hh := h
    unfold noAssignPairs at hh
    rw [Bool.and_eq_true] at hh
    unfold evalPairs
    rcases he : eval a env with ⟨res, env1⟩
    have henv1 : env1 = env := by
      have := eval_env_eq a env hh.1
      rw [he] at this
      exact this
    cases res with
    | error err => simp only []; exact henv1
    | ok v =>
      simp only []
      rcases hes : evalPairs rest env1 with ⟨res2, env2⟩
      have henv2 : env2 = env1 := by
        have := evalPairs_env_eq rest env1 hh.2
        rw [hes] at this
        exact this
      cases res2 <;> simp only [] <;> rw [henv2, henv1]

end

theorem except_bind_ok {α β : Type} {e : Except PErr α} {f : α → Except PErr β} {b : β}
    (h : (e >>= f) = .ok b) : ∃ x, e = .ok x ∧ f x = .ok b := by
  cases e with
  | error err =>
    simp only [bind, Except.bind] at h
    cases h
  | ok x =>
    simp only [bind, Except.bind] at h
    exact ⟨x, rfl, h⟩

theorem noAssignList_append (xs : List AST) (a : AST) :
    noAssignList (xs ++ [a]) = (noAssignList xs && noAssign a) := by
  induction xs with
  | nil => simp [noAssignList, Bool.and_comm]
  | cons e es ih => simp [noAssignList, ih, Bool.and_assoc]

theorem noAssignPairs_set (prs : List (Value × AST)) (k : Value) (v : AST)
    (h1 : noAssignPairs prs = true) (h2 : noAssign v = true) :
    noAssignPairs (pyAssocSet prs k v) = true := by
  induction prs with
  | nil => simp [pyAssocSet, noAssignPairs, h2]
  | cons kv rest ih =>
    rcases kv with ⟨k', v'⟩
    unfold noAssignPairs at h1
    rw [Bool.and_eq_true] at h1
    unfold pyAssocSet
    split
    · unfold noAssignPairs
      rw [Bool.and_eq_true]
      exact ⟨h2, h1.2⟩
    · unfold noAssignPairs
      rw [Bool.and_eq_true]
      exact ⟨h1.1, ih h1.2⟩

/-- `Parser.expr` and everything below it never produce an `Assign` node
(only `Parser.assignment` does, at the root). -/
theorem parser_noAssign : ∀ n : Nat,
    (∀ p a p', factor n p = .ok (a, p') → noAssign a = true) ∧
    (∀ elems p a p', listLoop n elems p = .ok (a, p') →
      noAssignList elems = true → noAssign a = true) ∧
    (∀ pairs p a p', dictLoop n pairs p = .ok (a, p') →
      noAssignPairs pairs = true → noAssign a = true) ∧
    (∀ p a p', term n p = .ok (a, p') → noAssign a = true) ∧
    (∀ node p a p', termLoop n node p = .ok (a, p') →
      noAssign node = true → noAssign a = true) ∧
    (∀ p a p', expr n p = .ok (a, p') → noAssign a = true) ∧
    (∀ node p a p', exprLoop n node p = .ok (a, p') →
      noAssign node = true → noAssign a = true) := by
  intro n
  induction n with
  | zero =>
    refine ⟨?_, ?_, ?_, ?_, ?_, ?_, ?_⟩
    · exact fun p a p' h => nomatch h
    · exact fun elems p a p' h _ => nomatch h
    · exact fun pairs p a p' h _ => nomatch h
    · exact fun p a p' h => nomatch h
    · exact fun node p a p' h _ => nomatch h
    · exact fun p a p' h => nomatch h
    · exact fun node p a p' h _ => nomatch h
  | succ n ih =>
    obtain ⟨ihF, ihLL, ihDL, ihT, ihTL, ihE, ihEL⟩ := ih
    refine ⟨?_, ?_, ?_, ?_, ?_, ?_, ?_⟩
    · -- factor
      intro p a p' hok
      unfold factor at hok
      simp only [] at hok
      split at hok <;>
      first
      | (cases hok; rfl)
      | (obtain ⟨p1, he1, hok⟩ := except_bind_ok hok
         first
         | (cases hok; rfl)
         | (exact ihLL [] p1 a p' hok rfl)
         | (exact ihDL [] p1 a p' hok rfl)
         | (obtain ⟨r, hexp, hok⟩ := except_bind_ok hok
            obtain ⟨p2, he2, hok⟩ := except_bind_ok hok
            cases hok
            exact ihE p1 r.1 r.2 (by rw [← hexp])))
    · -- listLoop
      intro elems p a p' hok helems
      unfold listLoop at hok
      split at hok
      · obtain ⟨p1, _, hok⟩ := except_bind_ok hok
        cases hok
        exact helems
      · obtain ⟨r, hexp, hok⟩ := except_bind_ok hok
        have hr : noAssign r.1 = true := ihE p r.1 r.2 (by rw [← hexp])
        have happ : noAssignList (elems ++ [r.1]) = true := by
          rw [noAssignList_append, Bool.and_eq_true]
          exact ⟨helems, hr⟩
        split at hok
        · obtain ⟨p1, _, hok⟩ := except_bind_ok hok
          exact ihLL _ p1 a p' hok happ
        · exact ihLL _ r.2 a p' hok happ
    · -- dictLoop
      intro pairs p a p' hok hpairs
      unfold dictLoop at hok
      split at hok
      · obtain ⟨p1, _, hok⟩ := except_bind_ok hok
        cases hok
        exact hpairs
      · obtain ⟨rk, hk, hok⟩ := except_bind_ok hok
        obtain ⟨p1, _, hok⟩ := except_bind_ok hok
        obtain ⟨rv, hv, hok⟩ := except_bind_ok hok
        obtain ⟨kv, _, hok⟩ := except_bind_ok hok
        have hrv : noAssign rv.1 = true := ihE p1 rv.1 rv.2 (by rw [← hv])
        have hset : noAssignPairs (pyAssocSet pairs kv rv.1) = true :=
          noAssignPairs_set pairs kv rv.1 hpairs hrv
        split at hok
        · obtain ⟨p2, _, hok⟩ := except_bind_ok hok
          exact ihDL _ p2 a p' hok hset
        · exact ihDL _ rv.2 a p' hok hset
    · -- term
      intro p a p' hok
      unfold term at hok
      obtain ⟨r, hfac, hok⟩ := except_bind_ok hok
      exact ihTL r.1 r.2 a p' hok (ihF p r.1 r.2 (by rw [← hfac]))
    · -- termLoop
      intro node p a p' hok hnode
      unfold termLoop at hok
      simp only [] at hok
      split at hok
      · obtain ⟨p1, _, hok⟩ := except_bind_ok hok
        obtain ⟨r, hfac, hok⟩ := except_bind_ok hok
        have hr : noAssign r.1 = true := ihF p1 r.1 r.2 (by rw [← hfac])
        refine ihTL _ r.2 a p' hok ?_
        unfold noAssign
        rw [Bool.and_eq_true]
        exact ⟨hnode, hr⟩
      · cases hok
        exact hnode
    · -- expr
      intro p a p' hok
      unfold expr at hok
      obtain ⟨r, hterm, hok⟩ := except_bind_ok hok
      exact ihEL r.1 r.2 a p' hok (ihT p r.1 r.2 (by rw [← hterm]))
    · -- exprLoop
      intro node p a p' hok hnode
      unfold exprLoop at hok
      simp only [] at hok
      split at hok
      · obtain ⟨p1, _, hok⟩ := except_bind_ok hok
        obtain ⟨r, hterm, hok⟩ := except_bind_ok hok
        have hr : noAssign r.1 = true := ihT p1 r.1 r.2 (by rw [← hterm])
        refine ihEL _ r.2 a p' hok ?_
        unfold noAssign
        rw [Bool.and_eq_true]
        exact ⟨hnode, hr⟩
      · cases hok
        exact hnode

theorem parseText_rootNoAssign {text : String} {ast : AST}
    (h : parseText text = .ok ast) : rootNoAssign ast = true := by
  unfold parseText at h
  cases hnt : nextToken (initLex text) with
  | error e => rw [hnt] at h; cases h
  | ok r =>
    rcases r with ⟨t, lx⟩
    rw [hnt] at h
    simp only [] at h
    cases hasg : assignment (parseFuel text) ⟨lx, t⟩ with
    | error e => rw [hasg] at h; cases h
    | ok r2 =>
      rcases r2 with ⟨a2, p2⟩
      rw [hasg] at h
      simp only [] at h
      cases h
      unfold assignment at hasg
      obtain ⟨r, hexp, hasg⟩ := except_bind_ok hasg
      have hr : noAssign r.1 = true :=
        (parser_noAssign (parseFuel text)).2.2.2.2.2.1 _ r.1 r.2 (by rw [← hexp])
      split at hasg
      next v hmatch =>
        obtain ⟨p1, _, hasg⟩ := except_bind_ok hasg
        obtain ⟨rr, hexp2, hasg⟩ := except_bind_ok hasg
        cases hasg
        have hrr : noAssign rr.1 = true :=
          (parser_noAssign (parseFuel text)).2.2.2.2.2.1 _ rr.1 rr.2 (by rw [← hexp2])
        unfold rootNoAssign
        exact hrr
      next l hne =>
        cases hasg
        cases hshape : r.1 <;> rw [hshape] at hr <;>
          first
          | exact hr
          | exact absurd hr (by simp [noAssign])

/-- A line that fails anywhere in the pipeline (scan, parse or evaluation)
leaves the session environment exactly as it was: the only mutation point is
a completed `visit_Assign`, whose right-hand side is evaluated before the
binding is written. -/
theorem runLine_env_intact (text : String) (env : Env) (e : KErr) (env' : Env)
    (h : runLine text env = (.error e, env')) : env' = env := by
  unfold runLine at h
  cases hp : parseText text with
  | error pe =>
    rw [hp] at h
    simp only [] at h
    cases h
    rfl
  | ok ast =>
    rw [hp] at h
    simp only [] at h
    have hroot := parseText_rootNoAssign hp
    rcases hev : eval ast env with ⟨res, env1⟩
    rw [hev] at h
    cases res with
    | ok v =>
      simp only [] at h
      cases h
    | error re =>
      simp only [] at h
      cases h
      cases ast with
      | assign lv rhs =>
        unfold eval at hev
        rcases her : eval rhs env with ⟨res2, env2⟩
        rw [her] at hev
        cases res2 with
        | ok v =>
          simp only [] at hev
          cases hev
        | error e2 =>
          simp only [] at hev
          cases hev
          have henv := eval_env_eq rhs env hroot
          rw [her] at henv
          exact henv
      | num v =>
        have henv := eval_env_eq (.num v) env hroot
        rw [hev] at henv
        exact henv
      | var v =>
        have henv := eval_env_eq (.var v) env hroot
        rw [hev] at henv
        exact henv
      | binop l op r =>
        have henv := eval_env_eq (.binop l op r) env hroot
        rw [hev] at henv
        exact henv
      | listE es =>
        have henv := eval_env_eq (.listE es) env hroot
        rw [hev] at henv
        exact henv
      | dictE prs =>
        have henv := eval_env_eq (.dictE prs) env hroot
        rw [hev] at henv
        exact henv
      | noneNode =>
        have henv := eval_env_eq .noneNode env hroot
        rw [hev] at henv
        exact henv

theorem pyAssocGet_pyAssocSet {α : Type} (d : List (Value × α)) (k : Value) (v : α)
    (hk : pyEq k k = true) : pyAssocGet (pyAssocSet d k v) k = some v := by
  induction d with
  | nil =>
    unfold pyAssocSet pyAssocGet
    rw [if_pos hk]
  | cons kv rest ih =>
    rcases kv with ⟨k', v'⟩
    unfold pyAssocSet
    by_cases he : pyEq k' k
    · rw [if_pos he]
      unfold pyAssocGet
      rw [if_pos he]
    · rw [if_neg he]
      unfold pyAssocGet
      rw [if_neg he]
      exact ih

theorem pyAssocSet_keys {α : Type} (d : List (Value × α)) (k : Value) (v : α) :
    (pyAssocSet d k v).map Prod.fst = d.map Prod.fst ∨
    (pyAssocSet d k v).map Prod.fst = d.map Prod.fst ++ [k] := by
  induction d with
  | nil =>
    right
    simp [pyAssocSet]
  | cons kv rest ih =>
    rcases kv with ⟨k', v'⟩
    unfold pyAssocSet
    by_cases he : pyEq k' k
    · rw [if_pos he]
      left
      simp
    · rw [if_neg he]
      rcases ih with h | h
      · left
        simp [h]
      · right
        simp [h]

theorem visitBinOp_arith {l r : Value} {fl fr : Bool} {a b : Rat}
    (hl : numVal l = some (fl, a)) (hr : numVal r = some (fr, b)) :
    visitBinOp .PLUS l r = .ok (numRes (fl || fr) (a + b)) ∧
    visitBinOp .MINUS l r = .ok (numRes (fl || fr) (a - b)) ∧
    visitBinOp .MUL l r = .ok (numRes (fl || fr) (a * b)) ∧
    (b = 0 → visitBinOp .DIV l r = .error .zeroDivisionError) ∧
    (b ≠ 0 → visitBinOp .DIV l r = .ok (.float (a / b))) := by
  unfold visitBinOp
  rw [hl, hr]
  refine ⟨rfl, rfl, rfl, ?_, ?_⟩
  · intro h
    simp [h]
  · intro h
    simp [h]

theorem eval_var_missing (v : Value) (env : Env) (h : pyAssocGet env v = none) :
    eval (.var v) env = (.error (.nameError v), env) := by
  unfold eval
  rw [h]

/-- C1 (counterexample): the claim says `"2 / 2"` yields `Integer(1)`; the
interpreter's `/` is Python true division, so `"2 / 2"` evaluates to
`Float(1.0)`, which is not `Integer(1)`. -/
theorem kexC1_counterexample :
    (runLine "2 / 2" []).1 = .ok (.float 1) ∧ Value.float 1 ≠ Value.int 1 :=
  ⟨rfl, fun h => nomatch h⟩

/-- C1 (amended): for numeric operands, `+ - *` perform standard arithmetic
with the result promoted to `Float` iff at least one operand is `Float`
(`numRes false` is `Integer`, `numRes true` is `Float`); `/` is true
division and always yields `Float`, even for two `Integer` operands; in
particular `"1 + 2.5"` yields `Float(3.5)` and `"2 / 2"` yields
`Float(1.0)`, not `Integer(1)`. -/
theorem kexC1_amended :
    (∀ (l r : Value) (fl fr : Bool) (a b : Rat),
      numVal l = some (fl, a) → numVal r = some (fr, b) →
      visitBinOp .PLUS l r = .ok (numRes (fl || fr) (a + b)) ∧
      visitBinOp .MINUS l r = .ok (numRes (fl || fr) (a - b)) ∧
      visitBinOp .MUL l r = .ok (numRes (fl || fr) (a * b)) ∧
      (b ≠ 0 → visitBinOp .DIV l r = .ok (.float (a / b)))) ∧
    runLine "1 + 2.5" [] = (.ok (.float (7/2)), []) ∧
    runLine "2 / 2" [] = (.ok (.float 1), []) := by
  refine ⟨?_, rfl, rfl⟩
  intro l r fl fr a b hl hr
  obtain ⟨h1, h2, h3, _, h5⟩ := visitBinOp_arith hl hr
  exact ⟨h1, h2, h3, h5⟩

theorem kexC1_witness :
    visitBinOp .PLUS (.int 1) (.float (5/2)) = .ok (numRes (false || true) (1 + 5/2)) :=
  (kexC1_amended.1 (.int 1) (.float (5/2)) false true 1 (5/2) rfl rfl).1

/-- C2: dividing any numeric value by a numeric value equal to zero raises
`ZeroDivisionError` (no value is returned); in particular `"1 / 0"` fails
with it. -/
theorem kexC2 :
    (∀ (l r : Value) (fl fr : Bool) (a : Rat),
      numVal l = some (fl, a) → numVal r = some (fr, 0) →
      visitBinOp .DIV l r = .error .zeroDivisionError) ∧
    runLine "1 / 0" [] = (.error (.runtimeError .zeroDivisionError), []) := by
  refine ⟨?_, rfl⟩
  intro l r fl fr a hl hr
  exact (visitBinOp_arith hl hr).2.2.2.1 rfl

theorem kexC2_witness :
    visitBinOp .DIV (.int 1) (.int 0) = .error .zeroDivisionError :=
  kexC2.1 (.int 1) (.int 0) false false 1 rfl rfl

/-- C3: multiplicative operators bind tighter than additive ones:
`"1 + 2 * 3"` parses as `1 + (2 * 3)` and evaluates to `7`, while
`"(1 + 2) * 3"` evaluates to `9`. -/
theorem kexC3 :
    parseText "1 + 2 * 3" =
      .ok (.binop (.num (.int 1)) .PLUS (.binop (.num (.int 2)) .MUL (.num (.int 3)))) ∧
    runLine "1 + 2 * 3" [] = (.ok (.int 7), []) ∧
    runLine "(1 + 2) * 3" [] = (.ok (.int 9), []) :=
  ⟨rfl, rfl, rfl⟩

/-- C4 (counterexample): the claim says the numeral rule consumes at most
one `.`; on `"1..2"` the scan consumes the whole run `1..2` — two dots —
and `number` then raises `ValueError` instead of producing a token. -/
theorem kexC4_counterexample :
    (scanNumber (initLex "1..2")).1 = "1..2".data ∧
    ("1..2".data).count '.' = 2 ∧
    number (initLex "1..2") = .error (.valueError "1..2") :=
  ⟨rfl, rfl, rfl⟩

/-- C4 (amended): the numeral rule consumes the maximal run of digits and
`.` characters (possibly several dots; no exponent notation).  When the
consumed literal has no dot the token is `Integer`; with exactly one dot
(and at least one digit) it is `Float`; with two or more dots the rule
fails with `ValueError` instead of producing a token. -/
theorem kexC4_amended (st : LexState) :
    (∀ c ∈ (scanNumber st).1, c.isDigit ∨ c = '.') ∧
    ((scanNumber st).1 ≠ [] → (scanNumber st).1.count '.' = 0 →
      number st = .ok (⟨.INTEGER, .int (digitsVal (scanNumber st).1),
                        (scanNumber st).2.line, st.pos⟩, (scanNumber st).2)) ∧
    ((scanNumber st).1.count '.' = 1 → (∃ c ∈ (scanNumber st).1, c.isDigit) →
      ∃ q, number st = .ok (⟨.FLOAT, .float q, (scanNumber st).2.line, st.pos⟩,
                            (scanNumber st).2)) ∧
    (2 ≤ (scanNumber st).1.count '.' →
      number st = .error (.valueError (String.mk (scanNumber st).1))) :=
  number_spec st

theorem kexC4_witness :
    ∃ q, number (initLex "2.5") =
      .ok (⟨.FLOAT, .float q, (scanNumber (initLex "2.5")).2.line, (initLex "2.5").pos⟩,
           (scanNumber (initLex "2.5")).2) :=
  (kexC4_amended (initLex "2.5")).2.2.1 (by decide) (by decide)

/-- C5: scanning a string whose opening `"` has no matching closing quote
fails with the unterminated-string error carrying a line and a column (the
opening quote's position); with a closing quote present the token's literal
is the raw characters between the quotes, with no escape processing — shown
concretely on `"a\nb"` whose backslash-n stays two characters. -/
theorem kexC5 :
    (∀ st : LexState, currentChar st = some '"' →
      (('"' ∉ st.text.drop (st.pos + 1)) →
        ∃ l, string st = .error (.unterminatedString l st.pos)) ∧
      ('"' ∈ st.text.drop (st.pos + 1) →
        ∃ l st', string st =
          .ok (⟨.STRING,
                .str (String.mk ((st.text.drop (st.pos + 1)).takeWhile (fun c => c != '"'))),
                l, st.pos⟩, st'))) ∧
    tokenize "\"a\\nb\"" =
      .ok [⟨.STRING, .str "a\\nb", 1, 0⟩, ⟨.EOF, .pyNone, 1, 7⟩] :=
  ⟨fun _ h => string_spec h, rfl⟩

theorem kexC5_witness :
    ∃ l, string (initLex "\"ab") = .error (.unterminatedString l 0) :=
  (kexC5.1 (initLex "\"ab") rfl).1 (by decide)

/-- C6: evaluating an identifier that is not bound in the environment fails
with `NameError` carrying the name (no value is returned); in particular
`"y"` with no prior assignment fails with `NameError("y")`. -/
theorem kexC6 :
    (∀ (v : Value) (env : Env), pyAssocGet env v = none →
      eval (.var v) env = (.error (.nameError v), env)) ∧
    runLine "y" [] = (.error (.runtimeError (.nameError (.str "y"))), []) :=
  ⟨eval_var_missing, rfl⟩

theorem kexC6_witness :
    eval (.var (.str "y")) [] = (.error (.nameError (.str "y")), []) :=
  kexC6.1 (.str "y") [] rfl

/-- C7: every successfully scanned token stream ends with exactly one `EOF`
token, and once the input is exhausted every further `get_next_token` call
returns `EOF` again with the state unchanged (idempotent at end). -/
theorem kexC7 :
    (∀ (text : String) (ts : List Token), tokenize text = .ok ts →
      (∃ t, ts.getLast? = some t ∧ t.type = .EOF) ∧
        ts.countP (fun u => u.type == .EOF) = 1) ∧
    (∀ st : LexState, st.text.length ≤ st.pos →
      nextToken st = .ok (⟨.EOF, .pyNone, st.line, st.column⟩, st)) :=
  ⟨fun _ _ h => tokenize_spec h, fun _ h => nextToken_at_end h⟩

theorem kexC7_witness :
    ((∃ t, ([⟨.INTEGER, .int 1, 1, 0⟩, ⟨.EOF, .pyNone, 1, 2⟩] : List Token).getLast? =
        some t ∧ t.type = .EOF) ∧
      ([⟨.INTEGER, .int 1, 1, 0⟩, ⟨.EOF, .pyNone, 1, 2⟩] : List Token).countP
        (fun u => u.type == .EOF) = 1) ∧
    nextToken ⟨['a'], 1, 1, 2⟩ = .ok (⟨.EOF, .pyNone, 1, 2⟩, ⟨['a'], 1, 1, 2⟩) :=
  ⟨kexC7.1 "1" [⟨.INTEGER, .int 1, 1, 0⟩, ⟨.EOF, .pyNone, 1, 2⟩] rfl,
   kexC7.2 ⟨['a'], 1, 1, 2⟩ (by decide)⟩

/-- C8: a line that fails anywhere in scanning, parsing or evaluation
returns the error to the caller with the environment exactly as before the
statement (only a completed assignment, whose right-hand side is evaluated
first, ever writes a binding). -/
theorem kexC8 :
    ∀ (text : String) (env : Env) (e : KErr) (env' : Env),
      runLine text env = (.error e, env') → env' = env :=
  runLine_env_intact

theorem kexC8_witness :
    ([(Value.str "x", Value.int 5)] : Env) = [(Value.str "x", Value.int 5)] :=
  kexC8 "y" [(Value.str "x", Value.int 5)]
    (.runtimeError (.nameError (.str "y"))) [(Value.str "x", Value.int 5)] rfl

set_option maxHeartbeats 8000000 in
/-- C9 (counterexample): the claim says parsing a dict literal produces the
ordered sequence of key/value expression pairs in source order, with
duplicate keys kept until evaluation; parsing `{1:2,1:3}` instead collapses
the duplicate key at parse time, storing a single pair holding the later
value expression. -/
theorem kexC9_counterexample :
    parseText "\x7b1:2,1:3\x7d" = .ok (.dictE [(.int 1, .num (.int 3))]) :=
  rfl

set_option maxHeartbeats 8000000 in
/-- C9 (amended): `Parser.factor` collapses dict keys at parse time into a
Python dict keyed by the key expression's token value: a duplicate key
overwrites the stored value in place (last write wins) while the key list
either stays unchanged or gains the new key at the end (first-insertion
order, never reordered); the stored values remain unevaluated expressions
until `visit_DictExpr` runs. -/
theorem kexC9_amended :
    (∀ (d : List (Value × AST)) (k : Value) (v : AST), pyEq k k = true →
      pyAssocGet (pyAssocSet d k v) k = some v) ∧
    (∀ (d : List (Value × AST)) (k : Value) (v : AST),
      (pyAssocSet d k v).map Prod.fst = d.map Prod.fst ∨
      (pyAssocSet d k v).map Prod.fst = d.map Prod.fst ++ [k]) ∧
    parseText "\x7b1:2,1:3\x7d" = .ok (.dictE [(.int 1, .num (.int 3))]) ∧
    runLine "\x7b1:2,1:3\x7d" [] = (.ok (.dict [(.int 1, .int 3)]), []) :=
  ⟨fun d k v hk => pyAssocGet_pyAssocSet d k v hk,
   fun d k v => pyAssocSet_keys d k v, rfl, rfl⟩

theorem kexC9_witness :
    pyAssocGet (pyAssocSet ([] : List (Value × AST)) (.int 1) (.num (.int 2))) (.int 1) =
      some (.num (.int 2)) :=
  kexC9_amended.1 [] (.int 1) (.num (.int 2)) rfl

/-- C10: `Parser.factor` on a token that begins no factor alternative (for
example `)`, `,` or `EOF`) returns Python `None` without raising a parse
error and without consuming the token, so the parser can hand the evaluator
an AST with `None` children — concretely, `"1 + )"` parses successfully to
`BinOp(Num(1), +, None)`. -/
theorem kexC10 :
    (∀ (n : Nat) (p : PState),
      p.cur.type = .RPAREN ∨ p.cur.type = .COMMA ∨ p.cur.type = .EOF →
      factor (n + 1) p = .ok (.noneNode, p)) ∧
    parseText "1 + )" = .ok (.binop (.num (.int 1)) .PLUS .noneNode) := by
  refine ⟨?_, rfl⟩
  intro n p htype
  unfold factor
  rcases htype with h | h | h <;> simp only [h]

theorem kexC10_witness :
    factor 1 ⟨initLex "", ⟨.RPAREN, .str ")", 1, 1⟩⟩ =
      .ok (.noneNode, ⟨initLex "", ⟨.RPAREN, .str ")", 1, 1⟩⟩) :=
  kexC10.1 0 ⟨initLex "", ⟨.RPAREN, .str ")", 1, 1⟩⟩ (Or.inl rfl)

end Kex
